import Mathlib

/-!
Verification development for the batch-transcode orchestrator
(`transcode.py`).  The program is shallowly embedded: file names are lists
of characters, the filesystem is a partial map from paths to byte lists,
and the external encoder is an oracle parameter describing what the
subprocess did (exit code, bytes written to the temporary output, or an
exception while launching/communicating).  Console printing is not
modelled; every other effect of the source is.
-/

namespace Transcode

/-- A file name: the final path component, as a list of characters. -/
abbrev Name := List Char

/-- Scan a reversed file name for its first dot (i.e. the last dot of the
name).  Returns `(a, b)` where `a` is the reversed run of characters after
the last dot and `b` the reversed part before it; `none` if no dot. -/
def splitDot : List Char → Option (List Char × List Char)
  | [] => none
  | c :: cs =>
    if c = '.' then some ([], cs)
    else (splitDot cs).map (fun p => (c :: p.1, p.2))

/-- Python `pathlib` stem of a file name (`PurePath.stem`): the name with
its last suffix removed; CPython keeps the whole name unless the last dot
sits at an index `i` with `0 < i < len(name) - 1`. -/
def pystem (n : Name) : Name :=
  match splitDot n.reverse with
  | none => n
  | some (a, b) => if a = [] ∨ b = [] then n else b.reverse

/-- A filesystem path: directory components plus a file name. -/
structure FPath where
  dir : List Name
  fname : Name
deriving DecidableEq

/-- The fixed output marker of the program: `-converted.mp4`. -/
def convMarker : Name :=
  ['-', 'c', 'o', 'n', 'v', 'e', 'r', 't', 'e', 'd', '.', 'm', 'p', '4']

/-- The temporary-output suffix: `.tmp.mp4` (argument of `with_suffix`). -/
def tmpMark : Name := ['.', 't', 'm', 'p', '.', 'm', 'p', '4']

/-- Python `Path.with_name`: same directory, new file name. -/
def withName (p : FPath) (n : Name) : FPath := ⟨p.dir, n⟩

/-- Python `Path.with_suffix`: same directory, name = stem + new suffix. -/
def withSuffix (p : FPath) (suf : Name) : FPath := ⟨p.dir, pystem p.fname ++ suf⟩

/-- The output artifact path of a candidate:
`file.with_name(file.stem + "-converted.mp4")` (source line 105). -/
def dstOf (p : FPath) : FPath := withName p (pystem p.fname ++ convMarker)

/-- The temporary output path of a destination:
`dst.with_suffix(".tmp.mp4")` (source line 50). -/
def tmpOf (d : FPath) : FPath := withSuffix d tmpMark

/-- File contents: a list of bytes. -/
abbrev Content := List Nat

/-- The filesystem: a partial map from paths to contents. -/
abbrev FS := FPath → Option Content

/-- Bytes possibly left at a path by the encoder subprocess. -/
def fsWrite (fs : FS) (p : FPath) : Option Content → FS
  | none => fs
  | some c => Function.update fs p (some c)

/-- Python `Path.unlink()`. -/
def fsUnlink (fs : FS) (p : FPath) : FS := Function.update fs p none

/-- Python `if p.exists(): p.unlink()`. -/
def fsUnlinkIfExists (fs : FS) (p : FPath) : FS :=
  if (fs p).isSome then fsUnlink fs p else fs

/-- Python `src.rename(dst)` when `src` holds `c`: removes `src`, (over)writes
`dst` (POSIX rename replaces an existing destination). -/
def fsRename (fs : FS) (src dst : FPath) (c : Content) : FS :=
  Function.update (fsUnlink fs src) dst (some c)

/-- Python `p.stat().st_size`. -/
def fsSize (fs : FS) (p : FPath) : Nat := ((fs p).getD []).length

section StemLemmas

theorem splitDot_eq_some {r : List Char} {a b : List Char}
    (h : splitDot r = some (a, b)) : r = a ++ '.' :: b ∧ '.' ∉ a := by
  induction r generalizing a b with
  | nil => simp [splitDot] at h
  | cons c cs ih =>
    simp only [splitDot] at h
    split at h
    next hc =>
      subst hc
      injection h with h2
      injection h2 with ha hb
      subst ha; subst hb
      simp
    next hc =>
      cases hsc : splitDot cs with
      | none => rw [hsc] at h; simp at h
      | some ab1 =>
        obtain ⟨a1, b1⟩ := ab1
        rw [hsc] at h
        simp only [Option.map_some'] at h
        injection h with h2
        injection h2 with ha hb
        subst hb
        obtain ⟨hr, hna⟩ := ih hsc
        constructor
        · rw [← ha, hr]; simp
        · rw [← ha]
          simp [hna]
          exact fun he => hc he.symm

/-- Structure of the Python stem: either the whole name is kept, or the
name is the stem followed by a dot and a nonempty, dot-free tail. -/
theorem pystem_spec (n : Name) :
    pystem n = n ∨ ∃ t, t ≠ [] ∧ '.' ∉ t ∧ n = pystem n ++ '.' :: t := by
  unfold pystem
  cases h : splitDot n.reverse with
  | none => exact Or.inl rfl
  | some ab =>
    obtain ⟨a, b⟩ := ab
    obtain ⟨hr, hna⟩ := splitDot_eq_some h
    by_cases hab : a = [] ∨ b = []
    · simp [hab]
    · simp [hab]
      right
      refine ⟨a.reverse, ?_, ?_, ?_⟩
      · simp; intro hae; exact hab (Or.inl hae)
      · simp [hna]
      · have : n = (a ++ '.' :: b).reverse := by
          rw [← hr]; simp
        rw [this]
        simp

/-- A name never equals its own stem followed by a character other than a
dot: the part a valid stem is cut at always starts with a dot. -/
theorem ne_pystem_append_of_ne_dot (n : Name) (c : Char) (hc : c ≠ '.')
    (s : Name) : n ≠ pystem n ++ c :: s := by
  rcases pystem_spec n with h | ⟨t, _, _, h⟩
  · intro he
    have : n.length = n.length + (s.length + 1) := by
      conv_lhs => rw [he]
      simp [h]
    omega
  · intro he
    have hcc := List.append_cancel_left (h.symm.trans he)
    simp at hcc
    exact hc hcc.1.symm

/-- A name never equals its own stem followed by a dot and a tail that
itself contains a dot: the tail after the last dot is dot-free. -/
theorem ne_pystem_append_dot (n : Name) (t : Name) (ht : '.' ∈ t) :
    n ≠ pystem n ++ '.' :: t := by
  rcases pystem_spec n with h | ⟨t0, _, hnd, h⟩
  · intro he
    have : n.length = n.length + (t.length + 1) := by
      conv_lhs => rw [he]
      simp [h]
    omega
  · intro he
    have hcc := List.append_cancel_left (h.symm.trans he)
    simp at hcc
    rw [hcc] at hnd
    exact hnd ht

/-- Computing the stem of `x ++ "-converted.mp4"`: the last dot is the one
before `mp4`, so the stem is `x ++ "-converted"`. -/
theorem pystem_append_convMarker (x : Name) :
    pystem (x ++ convMarker) =
      x ++ ['-', 'c', 'o', 'n', 'v', 'e', 'r', 't', 'e', 'd'] := by
  unfold pystem convMarker
  simp [splitDot]

end StemLemmas

section PathLemmas

/-- The temporary output path differs from the destination it is derived
from (`.tmp.mp4` adds a dotted tail the stem cut cannot produce). -/
theorem tmpOf_ne_self (d : FPath) : tmpOf d ≠ d := by
  intro he
  have hf : pystem d.fname ++ tmpMark = d.fname := congrArg FPath.fname he
  have : d.fname ≠ pystem d.fname ++ '.' :: ['t', 'm', 'p', '.', 'm', 'p', '4'] :=
    ne_pystem_append_dot d.fname ['t', 'm', 'p', '.', 'm', 'p', '4'] (by decide)
  exact this (hf.symm)

/-- The output artifact path differs from the candidate it is derived from. -/
theorem dstOf_ne_self (p : FPath) : dstOf p ≠ p := by
  intro he
  have hf : pystem p.fname ++ convMarker = p.fname := congrArg FPath.fname he
  have : p.fname ≠ pystem p.fname ++ '-' ::
      ['c', 'o', 'n', 'v', 'e', 'r', 't', 'e', 'd', '.', 'm', 'p', '4'] :=
    ne_pystem_append_of_ne_dot p.fname '-' (by decide) _
  exact this (hf.symm)

/-- The temporary output path of a candidate's artifact differs from the
candidate itself. -/
theorem tmpOf_dstOf_ne_self (p : FPath) : tmpOf (dstOf p) ≠ p := by
  intro he
  have hf : pystem (pystem p.fname ++ convMarker) ++ tmpMark = p.fname :=
    congrArg FPath.fname he
  rw [pystem_append_convMarker] at hf
  have : p.fname ≠ pystem p.fname ++ '-' ::
      (['c', 'o', 'n', 'v', 'e', 'r', 't', 'e', 'd'] ++ tmpMark) :=
    ne_pystem_append_of_ne_dot p.fname '-' (by decide) _
  exact this (hf.symm.trans (List.append_assoc _ _ _))

/-- The temporary output path of a destination keeps its directory. -/
theorem tmpOf_dir (d : FPath) : (tmpOf d).dir = d.dir := rfl

end PathLemmas

/-! ## The transcode step

`transcode_file(src, dst, dry_run, index, total)` (source lines 49-87).
The external `HandBrakeCLI` subprocess is an oracle: for a given source
and temporary output path it either exits with some code, or an exception
is raised while launching or communicating with it; in both cases it may
have left bytes at the temporary path. -/

/-- What the external encoder subprocess did. -/
inductive EncOutcome where
  | exits (code : Int) (written : Option Content)
  | raises (written : Option Content)

/-- The encoder oracle: outcome per (source, temporary output) pair. -/
abbrev Encoder := FPath → FPath → EncOutcome

/-- Whether an encoder outcome is a transcode failure in the sense of the
source: nonzero exit code, or an exception while launching or
communicating with the subprocess. -/
def failOutcome : EncOutcome → Bool
  | .exits code _ => decide (code ≠ 0)
  | .raises _ => true

/-- Result of the transcode step: the returned boolean, the filesystem
afterwards, and the encoder invocations made (for stating that the
encoder is or is not launched). -/
structure TResult where
  ok : Bool
  fs : FS
  calls : List (FPath × FPath)

/-- Shallow embedding of `transcode_file` (source lines 49-87).
Dry-run returns success with no side effect and no subprocess.  Live mode
launches the encoder against the temporary path; on nonzero exit the
temporary file is unlinked if present and failure is returned; on zero
exit the temporary file is renamed onto the destination (a rename whose
source is missing raises, which the `except` clause turns into a failure
after finding no temporary file to unlink); any exception also unlinks a
present temporary file and returns failure. -/
def transcode_file (enc : Encoder) (fs : FS) (src dst : FPath)
    (dry_run : Bool) : TResult :=
  let tmp_dst := tmpOf dst
  if dry_run then ⟨true, fs, []⟩
  else
    match enc src tmp_dst with
    | .exits code w =>
      let fs1 := fsWrite fs tmp_dst w
      if code ≠ 0 then ⟨false, fsUnlinkIfExists fs1 tmp_dst, [(src, tmp_dst)]⟩
      else
        match fs1 tmp_dst with
        | some c => ⟨true, fsRename fs1 tmp_dst dst c, [(src, tmp_dst)]⟩
        | none => ⟨false, fs1, [(src, tmp_dst)]⟩
    | .raises w =>
      let fs1 := fsWrite fs tmp_dst w
      ⟨false, fsUnlinkIfExists fs1 tmp_dst, [(src, tmp_dst)]⟩

/-! ## The orchestration loop

`main()` (source lines 90-147): CLI flags, the scanner, the per-candidate
decision loop, the four outcome collections, and the saved-bytes total. -/

/-- The CLI flags of the program that affect behaviour. -/
structure Args where
  reprocess : Bool
  delete : Bool
  commit : Bool
  recursive : Bool

/-- The mutable state of one pass: the filesystem plus the accumulator
collections of `main` (source lines 96-100), together with two logs that
only record what already happens (encoder invocations; the sizes read for
each savings term) so that claims about them can be stated. -/
structure RunState where
  fs : FS
  processed : List (FPath × FPath)
  skipped : List FPath
  deleted : List FPath
  failed : List FPath
  total_saved : Int
  encCalls : List (FPath × FPath)
  savedLog : List (FPath × Nat × Nat)

/-- One iteration of the loop of `main` (source lines 104-127). -/
def processOne (args : Args) (enc : Encoder) (st : RunState)
    (file : FPath) : RunState :=
  let dst := dstOf file
  if (st.fs dst).isSome && !args.reprocess then
    let st1 := { st with skipped := st.skipped ++ [file] }
    if args.commit && args.delete then
      { st1 with fs := fsUnlink st1.fs file, deleted := st1.deleted ++ [file] }
    else st1
  else
    let src_size := fsSize st.fs file
    let r := transcode_file enc st.fs file dst (!args.commit)
    let st1 := { st with fs := r.fs, encCalls := st.encCalls ++ r.calls }
    if r.ok then
      let st2 := { st1 with processed := st1.processed ++ [(file, dst)] }
      if args.commit then
        let new_size := fsSize r.fs dst
        let st3 := { st2 with
          total_saved := st2.total_saved + ((src_size : Int) - (new_size : Int)),
          savedLog := st2.savedLog ++ [(file, src_size, new_size)] }
        if args.delete then
          { st3 with fs := fsUnlink st3.fs file, deleted := st3.deleted ++ [file] }
        else st3
      else st2
    else { st1 with failed := st1.failed ++ [file] }

/-- The initial run state: empty collections, zero saved bytes. -/
def initState (fs : FS) : RunState :=
  { fs := fs, processed := [], skipped := [], deleted := [], failed := [],
    total_saved := 0, encCalls := [], savedLog := [] }

/-- The whole pass of `main` over the scanned candidates. -/
def runMain (args : Args) (enc : Encoder) (fs : FS)
    (targets : List FPath) : RunState :=
  targets.foldl (processOne args enc) (initState fs)

/-- Whether a file name is matched by the glob pattern `*.<ext>`:
a leading `*` does not match a leading dot, and the name must end in
`.<ext>`. -/
def globMatch (ext : Name) (n : Name) : Bool :=
  match n with
  | [] => false
  | c :: _ => c != '.' && ('.' :: ext).isSuffixOf n

/-- Whether a directory component is visible to `*` / `**` (glob skips
entries whose name starts with a dot). -/
def notHidden (n : Name) : Bool :=
  match n with
  | [] => false
  | c :: _ => c != '.'

/-- Shallow embedding of `find_target_files` (source lines 42-46) over an
enumeration `entries` of the filesystem in traversal order.  `glob` on a
root that does not exist or is not a directory silently yields nothing,
which the filter reproduces: no entry lies under such a root.  There is no
existence check and no error path. -/
def find_target_files (entries : List FPath) (root : List Name) (ext : Name)
    (recursive : Bool) : List FPath :=
  if recursive then
    entries.filter (fun p =>
      root.isPrefixOf p.dir && (p.dir.drop root.length).all notHidden &&
        globMatch ext p.fname)
  else
    entries.filter (fun p => p.dir == root && globMatch ext p.fname)

/-- Shallow embedding of `main` (source lines 90-151): scan, run the pass,
print the summary.  `main` never calls `sys.exit` and never raises, so the
process exit status is always 0. -/
def mainRun (args : Args) (enc : Encoder) (fs : FS) (entries : List FPath)
    (root : List Name) (ext : Name) : RunState × Nat :=
  (runMain args enc fs (find_target_files entries root ext args.recursive), 0)

/-- The quantity printed by the summary in commit mode (source line 145):
`total_saved / (1024**2)`, Python true division, as an exact rational. -/
def reportSavedMB (st : RunState) : ℚ := (st.total_saved : ℚ) / (1024 ^ 2)

section FsLemmas

theorem fsWrite_ne (fs : FS) (p : FPath) (w : Option Content) {q : FPath}
    (h : q ≠ p) : fsWrite fs p w q = fs q := by
  cases w with
  | none => rfl
  | some c => exact Function.update_noteq h _ _

theorem fsUnlink_self (fs : FS) (p : FPath) : fsUnlink fs p p = none :=
  Function.update_same _ _ _

theorem fsUnlink_ne (fs : FS) (p : FPath) {q : FPath} (h : q ≠ p) :
    fsUnlink fs p q = fs q :=
  Function.update_noteq h _ _

theorem fsUnlinkIfExists_self (fs : FS) (p : FPath) :
    fsUnlinkIfExists fs p p = none := by
  unfold fsUnlinkIfExists
  split
  · exact fsUnlink_self fs p
  · next h => exact Option.not_isSome_iff_eq_none.mp h

theorem fsUnlinkIfExists_ne (fs : FS) (p : FPath) {q : FPath} (h : q ≠ p) :
    fsUnlinkIfExists fs p q = fs q := by
  unfold fsUnlinkIfExists
  split
  · exact fsUnlink_ne fs p h
  · rfl

theorem fsRename_dst (fs : FS) (s d : FPath) (c : Content) :
    fsRename fs s d c d = some c :=
  Function.update_same _ _ _

theorem fsRename_src (fs : FS) (s d : FPath) (c : Content) (h : s ≠ d) :
    fsRename fs s d c s = none := by
  unfold fsRename
  rw [Function.update_noteq h]
  exact fsUnlink_self fs s

theorem fsRename_ne (fs : FS) (s d : FPath) (c : Content) {q : FPath}
    (h1 : q ≠ s) (h2 : q ≠ d) : fsRename fs s d c q = fs q := by
  unfold fsRename
  rw [Function.update_noteq h2]
  exact fsUnlink_ne fs s h1

end FsLemmas

section TranscodeLemmas

/-- Live-mode unfolding of the transcode step. -/
theorem transcode_live_unfold (enc : Encoder) (fs : FS) (src dst : FPath) :
    transcode_file enc fs src dst false =
      match enc src (tmpOf dst) with
      | .exits code w =>
        if code ≠ 0 then
          ⟨false, fsUnlinkIfExists (fsWrite fs (tmpOf dst) w) (tmpOf dst),
            [(src, tmpOf dst)]⟩
        else
          match fsWrite fs (tmpOf dst) w (tmpOf dst) with
          | some c =>
            ⟨true, fsRename (fsWrite fs (tmpOf dst) w) (tmpOf dst) dst c,
              [(src, tmpOf dst)]⟩
          | none => ⟨false, fsWrite fs (tmpOf dst) w, [(src, tmpOf dst)]⟩
      | .raises w =>
        ⟨false, fsUnlinkIfExists (fsWrite fs (tmpOf dst) w) (tmpOf dst),
          [(src, tmpOf dst)]⟩ := rfl

/-- Dry-run: success, no filesystem change, no subprocess. -/
theorem transcode_dry (enc : Encoder) (fs : FS) (src dst : FPath) :
    transcode_file enc fs src dst true = ⟨true, fs, []⟩ := rfl

/-- Branch equation: the encoder exited with some code. -/
theorem transcode_eq_of_exits (enc : Encoder) (fs : FS) (src dst : FPath)
    {code : Int} {w : Option Content}
    (henc : enc src (tmpOf dst) = .exits code w) :
    transcode_file enc fs src dst false =
      if code ≠ 0 then
        ⟨false, fsUnlinkIfExists (fsWrite fs (tmpOf dst) w) (tmpOf dst),
          [(src, tmpOf dst)]⟩
      else
        match fsWrite fs (tmpOf dst) w (tmpOf dst) with
        | some c =>
          ⟨true, fsRename (fsWrite fs (tmpOf dst) w) (tmpOf dst) dst c,
            [(src, tmpOf dst)]⟩
        | none => ⟨false, fsWrite fs (tmpOf dst) w, [(src, tmpOf dst)]⟩ := by
  rw [transcode_live_unfold, henc]

/-- Branch equation: an exception while launching or communicating. -/
theorem transcode_eq_of_raises (enc : Encoder) (fs : FS) (src dst : FPath)
    {w : Option Content} (henc : enc src (tmpOf dst) = .raises w) :
    transcode_file enc fs src dst false =
      ⟨false, fsUnlinkIfExists (fsWrite fs (tmpOf dst) w) (tmpOf dst),
        [(src, tmpOf dst)]⟩ := by
  rw [transcode_live_unfold, henc]

/-- Live mode always launches the encoder exactly once, against the
temporary output path. -/
theorem transcode_live_calls (enc : Encoder) (fs : FS) (src dst : FPath) :
    (transcode_file enc fs src dst false).calls = [(src, tmpOf dst)] := by
  cases henc : enc src (tmpOf dst) with
  | exits code w =>
    rw [transcode_eq_of_exits enc fs src dst henc]
    by_cases h : code ≠ 0
    · simp [h]
    · simp only [h, if_false]
      cases fsWrite fs (tmpOf dst) w (tmpOf dst) <;> rfl
  | raises w => rw [transcode_eq_of_raises enc fs src dst henc]

/-- A failing encoder outcome makes the live transcode step return
failure. -/
theorem transcode_fail_of_failOutcome (enc : Encoder) (fs : FS)
    (src dst : FPath) (h : failOutcome (enc src (tmpOf dst)) = true) :
    (transcode_file enc fs src dst false).ok = false := by
  cases henc : enc src (tmpOf dst) with
  | exits code w =>
    rw [henc] at h
    simp only [failOutcome, decide_eq_true_eq] at h
    rw [transcode_eq_of_exits enc fs src dst henc]
    simp [h]
  | raises w => rw [transcode_eq_of_raises enc fs src dst henc]

/-- After a live transcode step that returned failure, the temporary file
is gone and every other path — in particular the destination and the
source — is untouched. -/
theorem transcode_live_fail_fs (enc : Encoder) (fs : FS) (src dst : FPath)
    (h : (transcode_file enc fs src dst false).ok = false) :
    (transcode_file enc fs src dst false).fs (tmpOf dst) = none ∧
    ∀ q, q ≠ tmpOf dst → (transcode_file enc fs src dst false).fs q = fs q := by
  cases henc : enc src (tmpOf dst) with
  | exits code w =>
    rw [transcode_eq_of_exits enc fs src dst henc] at h ⊢
    by_cases hc : code ≠ 0
    · simp only [if_pos hc]
      exact ⟨fsUnlinkIfExists_self _ _,
        fun q hq => (fsUnlinkIfExists_ne _ _ hq).trans (fsWrite_ne fs _ w hq)⟩
    · simp only [if_neg hc] at h ⊢
      cases hw : fsWrite fs (tmpOf dst) w (tmpOf dst) with
      | some c =>
        rw [hw] at h
        exact Bool.noConfusion (show true = false from h)
      | none => exact ⟨hw, fun q hq => fsWrite_ne fs _ w hq⟩
  | raises w =>
    rw [transcode_eq_of_raises enc fs src dst henc]
    exact ⟨fsUnlinkIfExists_self _ _,
      fun q hq => (fsUnlinkIfExists_ne _ _ hq).trans (fsWrite_ne fs _ w hq)⟩

/-- After a live transcode step that returned success: the encoder exited
with code 0, the destination now holds exactly the bytes the temporary
file held (the rename), the temporary file is gone, and every path other
than these two is untouched. -/
theorem transcode_live_ok_fs (enc : Encoder) (fs : FS) (src dst : FPath)
    (h : (transcode_file enc fs src dst false).ok = true) :
    (∃ w c, enc src (tmpOf dst) = .exits 0 w ∧
      fsWrite fs (tmpOf dst) w (tmpOf dst) = some c ∧
      (transcode_file enc fs src dst false).fs dst = some c) ∧
    (transcode_file enc fs src dst false).fs (tmpOf dst) = none ∧
    ∀ q, q ≠ tmpOf dst → q ≠ dst →
      (transcode_file enc fs src dst false).fs q = fs q := by
  cases henc : enc src (tmpOf dst) with
  | exits code w =>
    rw [transcode_eq_of_exits enc fs src dst henc] at h ⊢
    by_cases hc : code ≠ 0
    · simp [if_pos hc] at h
    · simp only [if_neg hc] at h ⊢
      push_neg at hc
      subst hc
      cases hw : fsWrite fs (tmpOf dst) w (tmpOf dst) with
      | none =>
        rw [hw] at h
        exact Bool.noConfusion (show false = true from h)
      | some c =>
        refine ⟨⟨w, c, rfl, hw, fsRename_dst _ _ _ _⟩, ?_, ?_⟩
        · exact fsRename_src _ _ _ _ (tmpOf_ne_self dst)
        · intro q hq1 hq2
          exact (fsRename_ne _ _ _ _ hq1 hq2).trans (fsWrite_ne fs _ w hq1)
  | raises w =>
    rw [transcode_eq_of_raises enc fs src dst henc] at h
    simp at h

end TranscodeLemmas

section StepLemmas

/-- Branch equation for the skip branch (source lines 107-113): artifact
present and no reprocess flag. -/
theorem processOne_skip_eq (args : Args) (enc : Encoder) (st : RunState)
    (file : FPath)
    (hskip : ((st.fs (dstOf file)).isSome && !args.reprocess) = true) :
    processOne args enc st file =
      if (args.commit && args.delete) = true then
        { st with skipped := st.skipped ++ [file],
                  fs := fsUnlink st.fs file,
                  deleted := st.deleted ++ [file] }
      else { st with skipped := st.skipped ++ [file] } := by
  simp only [processOne, hskip, if_true]

/-- Branch equation for the transcode branch (source lines 115-127). -/
theorem processOne_go_eq (args : Args) (enc : Encoder) (st : RunState)
    (file : FPath)
    (hgo : ((st.fs (dstOf file)).isSome && !args.reprocess) = false) :
    processOne args enc st file =
      (let src_size := fsSize st.fs file
       let r := transcode_file enc st.fs file (dstOf file) (!args.commit)
       let st1 := { st with fs := r.fs, encCalls := st.encCalls ++ r.calls }
       if r.ok then
         let st2 := { st1 with processed := st1.processed ++ [(file, dstOf file)] }
         if args.commit then
           let new_size := fsSize r.fs (dstOf file)
           let st3 := { st2 with
             total_saved := st2.total_saved + ((src_size : Int) - (new_size : Int)),
             savedLog := st2.savedLog ++ [(file, src_size, new_size)] }
           if args.delete then
             { st3 with fs := fsUnlink st3.fs file,
                        deleted := st3.deleted ++ [file] }
           else st3
         else st2
       else { st1 with failed := st1.failed ++ [file] }) := by
  simp only [processOne, hgo, Bool.false_eq_true, if_false]

/-- Each loop iteration adds its candidate to exactly one of the three
outcome collections, counted with multiplicity. -/
theorem processOne_count (args : Args) (enc : Encoder) (st : RunState)
    (file : FPath) (g : FPath) :
    ((processOne args enc st file).processed.map Prod.fst).count g +
      (processOne args enc st file).skipped.count g +
      (processOne args enc st file).failed.count g =
    (st.processed.map Prod.fst).count g + st.skipped.count g +
      st.failed.count g + [file].count g := by
  by_cases h : ((st.fs (dstOf file)).isSome && !args.reprocess) = true
  · rw [processOne_skip_eq args enc st file h]
    split <;> simp [List.count_append] <;> omega
  · rw [Bool.not_eq_true] at h
    rw [processOne_go_eq args enc st file h]
    simp only []
    split
    · split
      · split <;> simp [List.count_append] <;> omega
      · simp [List.count_append]; omega
    · simp [List.count_append]; omega

/-- Each loop iteration grows the three outcome collections by exactly
one element in total. -/
theorem processOne_length (args : Args) (enc : Encoder) (st : RunState)
    (file : FPath) :
    (processOne args enc st file).processed.length +
      (processOne args enc st file).skipped.length +
      (processOne args enc st file).failed.length =
    st.processed.length + st.skipped.length + st.failed.length + 1 := by
  by_cases h : ((st.fs (dstOf file)).isSome && !args.reprocess) = true
  · rw [processOne_skip_eq args enc st file h]
    split <;> simp <;> omega
  · rw [Bool.not_eq_true] at h
    rw [processOne_go_eq args enc st file h]
    simp only []
    split
    · split
      · split <;> simp <;> omega
      · simp; omega
    · simp; omega

/-- Each loop iteration preserves: every deleted source was skipped or
processed. -/
theorem processOne_deleted_sub (args : Args) (enc : Encoder) (st : RunState)
    (file : FPath)
    (hinv : ∀ g ∈ st.deleted, g ∈ st.processed.map Prod.fst ∨ g ∈ st.skipped) :
    ∀ g ∈ (processOne args enc st file).deleted,
      g ∈ (processOne args enc st file).processed.map Prod.fst ∨
        g ∈ (processOne args enc st file).skipped := by
  by_cases h : ((st.fs (dstOf file)).isSome && !args.reprocess) = true
  · rw [processOne_skip_eq args enc st file h]
    split
    · intro g hg
      simp only [List.mem_append, List.mem_singleton] at hg ⊢
      rcases hg with hg | hg
      · rcases hinv g hg with hm | hm
        · exact Or.inl hm
        · exact Or.inr (Or.inl hm)
      · exact Or.inr (Or.inr hg)
    · intro g hg
      simp only [List.mem_append, List.mem_singleton] at hg ⊢
      rcases hinv g hg with hm | hm
      · exact Or.inl hm
      · exact Or.inr (Or.inl hm)
  · rw [Bool.not_eq_true] at h
    rw [processOne_go_eq args enc st file h]
    simp only []
    split
    · split
      · split
        · intro g hg
          simp only [List.mem_append, List.mem_singleton, List.map_append,
            List.map_cons, List.map_nil] at hg ⊢
          rcases hg with hg | hg
          · rcases hinv g hg with hm | hm
            · exact Or.inl (Or.inl hm)
            · exact Or.inr hm
          · exact Or.inl (Or.inr hg)
        · intro g hg
          simp only [List.mem_append, List.map_append, List.map_cons,
            List.map_nil] at hg ⊢
          rcases hinv g hg with hm | hm
          · exact Or.inl (Or.inl hm)
          · exact Or.inr hm
      · intro g hg
        simp only [List.mem_append, List.map_append, List.map_cons,
          List.map_nil] at hg ⊢
        rcases hinv g hg with hm | hm
        · exact Or.inl (Or.inl hm)
        · exact Or.inr hm
    · intro g hg
      exact hinv g hg

/-- With commit mode off, an iteration touches neither the filesystem nor
the encoder, deletes nothing, and can fail nothing. -/
theorem processOne_dry (args : Args) (enc : Encoder) (st : RunState)
    (file : FPath) (hc : args.commit = false) :
    (processOne args enc st file).fs = st.fs ∧
    (processOne args enc st file).encCalls = st.encCalls ∧
    (processOne args enc st file).deleted = st.deleted ∧
    (processOne args enc st file).failed = st.failed ∧
    (processOne args enc st file).total_saved = st.total_saved := by
  by_cases h : ((st.fs (dstOf file)).isSome && !args.reprocess) = true
  · rw [processOne_skip_eq args enc st file h]
    have hcd : (args.commit && args.delete) = false := by simp [hc]
    simp [hcd]
  · rw [Bool.not_eq_true] at h
    rw [processOne_go_eq args enc st file h]
    simp [hc, transcode_dry]

/-- Each commit-mode iteration preserves the savings bookkeeping: the
running total is the sum of the logged per-file terms, and the log lines
up one-to-one with the processed list. -/
theorem processOne_saved (args : Args) (enc : Encoder) (st : RunState)
    (file : FPath) (hc : args.commit = true)
    (hts : st.total_saved =
      (st.savedLog.map (fun e => (e.2.1 : Int) - (e.2.2 : Int))).sum)
    (hlog : st.savedLog.map Prod.fst = st.processed.map Prod.fst) :
    (processOne args enc st file).total_saved =
      ((processOne args enc st file).savedLog.map
        (fun e => (e.2.1 : Int) - (e.2.2 : Int))).sum ∧
    (processOne args enc st file).savedLog.map Prod.fst =
      (processOne args enc st file).processed.map Prod.fst := by
  by_cases h : ((st.fs (dstOf file)).isSome && !args.reprocess) = true
  · rw [processOne_skip_eq args enc st file h]
    split <;> exact ⟨hts, hlog⟩
  · rw [Bool.not_eq_true] at h
    rw [processOne_go_eq args enc st file h]
    simp only [hc]
    split
    · simp only [if_true]
      split
      · constructor
        · simp [hts]
        · simp [hlog]
      · constructor
        · simp [hts]
        · simp [hlog]
    · exact ⟨hts, hlog⟩

/-- The failure branch of the loop in commit mode (source lines 126-127),
with the transcode-step cleanup: the candidate goes to `failed` only, the
source and the pre-existing artifact are untouched, the temporary file is
gone, and nothing is deleted. -/
theorem processOne_fail_spec (args : Args) (enc : Encoder) (st : RunState)
    (file : FPath)
    (hgo : ((st.fs (dstOf file)).isSome && !args.reprocess) = false)
    (hc : args.commit = true)
    (hfail : failOutcome (enc file (tmpOf (dstOf file))) = true) :
    (processOne args enc st file).failed = st.failed ++ [file] ∧
    (processOne args enc st file).deleted = st.deleted ∧
    (processOne args enc st file).processed = st.processed ∧
    (processOne args enc st file).skipped = st.skipped ∧
    (processOne args enc st file).fs file = st.fs file ∧
    (processOne args enc st file).fs (dstOf file) = st.fs (dstOf file) ∧
    (processOne args enc st file).fs (tmpOf (dstOf file)) = none := by
  have hok : (transcode_file enc st.fs file (dstOf file) false).ok = false :=
    transcode_fail_of_failOutcome enc st.fs file (dstOf file) hfail
  have hfs := transcode_live_fail_fs enc st.fs file (dstOf file) hok
  rw [processOne_go_eq args enc st file hgo]
  simp only [hc, Bool.not_true]
  simp only [hok, Bool.false_eq_true, if_false]
  refine ⟨trivial, trivial, trivial, trivial, ?_, ?_, ?_⟩
  · exact hfs.2 file (Ne.symm (tmpOf_dstOf_ne_self file))
  · exact hfs.2 (dstOf file) (Ne.symm (tmpOf_ne_self (dstOf file)))
  · exact hfs.1

end StepLemmas

section FoldLemmas

theorem foldl_count (args : Args) (enc : Encoder) (l : List FPath)
    (st : RunState) (g : FPath) :
    (((l.foldl (processOne args enc) st).processed.map Prod.fst).count g +
      (l.foldl (processOne args enc) st).skipped.count g +
      (l.foldl (processOne args enc) st).failed.count g) =
    ((st.processed.map Prod.fst).count g + st.skipped.count g +
      st.failed.count g) + l.count g := by
  induction l generalizing st with
  | nil => simp
  | cons f rest ih =>
    simp only [List.foldl_cons]
    rw [ih (processOne args enc st f)]
    have hstep := processOne_count args enc st f g
    rw [show (f :: rest) = [f] ++ rest from rfl, List.count_append]
    omega

theorem foldl_length (args : Args) (enc : Encoder) (l : List FPath)
    (st : RunState) :
    ((l.foldl (processOne args enc) st).processed.length +
      (l.foldl (processOne args enc) st).skipped.length +
      (l.foldl (processOne args enc) st).failed.length) =
    (st.processed.length + st.skipped.length + st.failed.length) + l.length := by
  induction l generalizing st with
  | nil => simp
  | cons f rest ih =>
    simp only [List.foldl_cons, List.length_cons]
    rw [ih (processOne args enc st f)]
    have hstep := processOne_length args enc st f
    omega

theorem foldl_deleted_sub (args : Args) (enc : Encoder) (l : List FPath)
    (st : RunState)
    (hinv : ∀ g ∈ st.deleted, g ∈ st.processed.map Prod.fst ∨ g ∈ st.skipped) :
    ∀ g ∈ (l.foldl (processOne args enc) st).deleted,
      g ∈ (l.foldl (processOne args enc) st).processed.map Prod.fst ∨
        g ∈ (l.foldl (processOne args enc) st).skipped := by
  induction l generalizing st with
  | nil => exact hinv
  | cons f rest ih =>
    simp only [List.foldl_cons]
    exact ih (processOne args enc st f)
      (processOne_deleted_sub args enc st f hinv)

theorem foldl_dry (args : Args) (enc : Encoder) (l : List FPath)
    (st : RunState) (hc : args.commit = false) :
    (l.foldl (processOne args enc) st).fs = st.fs ∧
    (l.foldl (processOne args enc) st).encCalls = st.encCalls ∧
    (l.foldl (processOne args enc) st).deleted = st.deleted ∧
    (l.foldl (processOne args enc) st).failed = st.failed ∧
    (l.foldl (processOne args enc) st).total_saved = st.total_saved := by
  induction l generalizing st with
  | nil => exact ⟨rfl, rfl, rfl, rfl, rfl⟩
  | cons f rest ih =>
    simp only [List.foldl_cons]
    have hstep := processOne_dry args enc st f hc
    have hrest := ih (processOne args enc st f)
    exact ⟨hrest.1.trans hstep.1, hrest.2.1.trans hstep.2.1,
      hrest.2.2.1.trans hstep.2.2.1, hrest.2.2.2.1.trans hstep.2.2.2.1,
      hrest.2.2.2.2.trans hstep.2.2.2.2⟩

theorem foldl_saved (args : Args) (enc : Encoder) (l : List FPath)
    (st : RunState) (hc : args.commit = true)
    (hts : st.total_saved =
      (st.savedLog.map (fun e => (e.2.1 : Int) - (e.2.2 : Int))).sum)
    (hlog : st.savedLog.map Prod.fst = st.processed.map Prod.fst) :
    (l.foldl (processOne args enc) st).total_saved =
      ((l.foldl (processOne args enc) st).savedLog.map
        (fun e => (e.2.1 : Int) - (e.2.2 : Int))).sum ∧
    (l.foldl (processOne args enc) st).savedLog.map Prod.fst =
      (l.foldl (processOne args enc) st).processed.map Prod.fst := by
  induction l generalizing st with
  | nil => exact ⟨hts, hlog⟩
  | cons f rest ih =>
    simp only [List.foldl_cons]
    have hstep := processOne_saved args enc st f hc hts hlog
    exact ih (processOne args enc st f) hstep.1 hstep.2

end FoldLemmas

/-! ## Concrete fixtures used by witnesses and counterexamples -/

/-- A candidate file `a.mkv` in the root directory. -/
def file0 : FPath := ⟨[], ['a', '.', 'm', 'k', 'v']⟩

/-- A second candidate file `b.mkv` in the root directory. -/
def file1 : FPath := ⟨[], ['b', '.', 'm', 'k', 'v']⟩

/-- A filesystem holding `a.mkv` (3 bytes), its artifact
`a-converted.mp4` (1 byte) and `b.mkv` (2 bytes). -/
def fs0 : FS := fun p =>
  if p = file0 then some [1, 2, 3]
  else if p = dstOf file0 then some [7]
  else if p = file1 then some [5, 5] else none

/-- The empty filesystem. -/
def fsEmpty : FS := fun _ => none

/-- An encoder that always exits with code 1 writing nothing. -/
def encFail : Encoder := fun _ _ => .exits 1 none

/-- An encoder that always succeeds, leaving one byte at the temporary
path. -/
def encOk : Encoder := fun _ _ => .exits 0 (some [9])

/-- Flags: commit, delete and reprocess all on. -/
def argsAll : Args := ⟨true, true, true, false⟩

/-- Flags: commit on, everything else off. -/
def argsCommit : Args := ⟨false, false, true, false⟩

/-- Flags: commit and delete on, reprocess off. -/
def argsAll2 : Args := ⟨false, true, true, false⟩

/-- Flags: dry-run (default) with delete requested. -/
def argsDry : Args := ⟨false, true, false, false⟩

/-! ## The claims -/

/-- Claim C1: in live (commit) mode the output artifact is created only by
renaming the temporary file, and only after the encoder exited with
code 0: a live transcode step that returns failure leaves the destination
exactly as it was; whenever the destination changed, the step succeeded,
the encoder exited 0, the new artifact holds precisely the bytes the
temporary file held, and the temporary file is gone.  Consequently, when
`--reprocess` forces re-transcoding of a candidate whose artifact exists
and the encode fails, the pre-existing artifact is unchanged. -/
theorem spec_C1 :
    (∀ (enc : Encoder) (fs : FS) (src dst : FPath),
      ((transcode_file enc fs src dst false).ok = false →
        (transcode_file enc fs src dst false).fs dst = fs dst) ∧
      ((transcode_file enc fs src dst false).fs dst ≠ fs dst →
        (transcode_file enc fs src dst false).ok = true ∧
        (∃ w c, enc src (tmpOf dst) = .exits 0 w ∧
          fsWrite fs (tmpOf dst) w (tmpOf dst) = some c ∧
          (transcode_file enc fs src dst false).fs dst = some c) ∧
        (transcode_file enc fs src dst false).fs (tmpOf dst) = none)) ∧
    (∀ (args : Args) (enc : Encoder) (st : RunState) (file : FPath),
      args.commit = true → args.reprocess = true →
      failOutcome (enc file (tmpOf (dstOf file))) = true →
      (processOne args enc st file).fs (dstOf file) = st.fs (dstOf file)) := by
  constructor
  · intro enc fs src dst
    constructor
    · intro hok
      exact (transcode_live_fail_fs enc fs src dst hok).2 dst
        (Ne.symm (tmpOf_ne_self dst))
    · intro hne
      cases hok : (transcode_file enc fs src dst false).ok with
      | false =>
        exact absurd ((transcode_live_fail_fs enc fs src dst hok).2 dst
          (Ne.symm (tmpOf_ne_self dst))) hne
      | true =>
        have hspec := transcode_live_ok_fs enc fs src dst hok
        exact ⟨rfl, hspec.1, hspec.2.1⟩
  · intro args enc st file hc hrep hfail
    have hgo : ((st.fs (dstOf file)).isSome && !args.reprocess) = false := by
      simp [hrep]
    exact (processOne_fail_spec args enc st file hgo hc hfail).2.2.2.2.2.1

/-- Witness for C1 at concrete inputs: a failing encode over `a.mkv` with
`--reprocess --commit --delete`, where `a-converted.mp4` already exists,
leaves the artifact untouched, at the transcode level and at the loop
level. -/
theorem spec_C1_witness :
    (transcode_file encFail fs0 file0 (dstOf file0) false).fs (dstOf file0) =
      fs0 (dstOf file0) ∧
    (processOne argsAll encFail (initState fs0) file0).fs (dstOf file0) =
      (initState fs0).fs (dstOf file0) :=
  ⟨(spec_C1.1 encFail fs0 file0 (dstOf file0)).1 (by decide),
    spec_C1.2 argsAll encFail (initState fs0) file0 rfl rfl (by decide)⟩

/-- Claim C2: on any transcode failure (nonzero exit, or an exception
while launching or communicating with the subprocess) the transcode step
deletes the temporary output file, creates no artifact and returns
failure; the loop then records the candidate as failed only, deletes
nothing, and leaves the source in place regardless of the delete flag. -/
theorem spec_C2 :
    (∀ (enc : Encoder) (fs : FS) (src dst : FPath),
      failOutcome (enc src (tmpOf dst)) = true →
      (transcode_file enc fs src dst false).ok = false ∧
      (transcode_file enc fs src dst false).fs (tmpOf dst) = none ∧
      (transcode_file enc fs src dst false).fs dst = fs dst) ∧
    (∀ (args : Args) (enc : Encoder) (st : RunState) (file : FPath),
      ((st.fs (dstOf file)).isSome && !args.reprocess) = false →
      args.commit = true →
      failOutcome (enc file (tmpOf (dstOf file))) = true →
      (processOne args enc st file).failed = st.failed ++ [file] ∧
      (processOne args enc st file).deleted = st.deleted ∧
      (processOne args enc st file).fs file = st.fs file) := by
  constructor
  · intro enc fs src dst hfail
    have hok := transcode_fail_of_failOutcome enc fs src dst hfail
    have hspec := transcode_live_fail_fs enc fs src dst hok
    exact ⟨hok, hspec.1, hspec.2 dst (Ne.symm (tmpOf_ne_self dst))⟩
  · intro args enc st file hgo hc hfail
    have hspec := processOne_fail_spec args enc st file hgo hc hfail
    exact ⟨hspec.1, hspec.2.1, hspec.2.2.2.2.1⟩

/-- Witness for C2: a failing encode of `b.mkv` (no artifact yet) in
commit mode with delete requested fails the candidate, removes the
temporary file, creates no artifact and keeps the source. -/
theorem spec_C2_witness :
    ((transcode_file encFail fs0 file1 (dstOf file1) false).ok = false ∧
      (transcode_file encFail fs0 file1 (dstOf file1) false).fs
        (tmpOf (dstOf file1)) = none ∧
      (transcode_file encFail fs0 file1 (dstOf file1) false).fs (dstOf file1) =
        fs0 (dstOf file1)) ∧
    ((processOne argsAll encFail (initState fs0) file1).failed = [file1] ∧
      (processOne argsAll encFail (initState fs0) file1).deleted = [] ∧
      (processOne argsAll encFail (initState fs0) file1).fs file1 = fs0 file1) :=
  ⟨spec_C2.1 encFail fs0 file1 (dstOf file1) (by decide),
    spec_C2.2 argsAll encFail (initState fs0) file1 (by decide) rfl (by decide)⟩

/-- Claim C3: with commit mode off (the default dry-run), a pass performs
no filesystem mutation at all — the filesystem afterwards is the
filesystem before — never launches the encoder, and deletes nothing even
with `--delete`. -/
theorem spec_C3 (args : Args) (enc : Encoder) (fs : FS)
    (targets : List FPath) (hc : args.commit = false) :
    (runMain args enc fs targets).fs = fs ∧
    (runMain args enc fs targets).encCalls = [] ∧
    (runMain args enc fs targets).deleted = [] := by
  have h := foldl_dry args enc targets (initState fs) hc
  exact ⟨h.1, h.2.1, h.2.2.1⟩

/-- Witness for C3: a dry run with `--delete` over both candidates leaves
the filesystem exactly as it was, with no encoder launch and nothing
deleted. -/
theorem spec_C3_witness :
    (runMain argsDry encFail fs0 [file0, file1]).fs = fs0 ∧
    (runMain argsDry encFail fs0 [file0, file1]).encCalls = [] ∧
    (runMain argsDry encFail fs0 [file0, file1]).deleted = [] :=
  spec_C3 argsDry encFail fs0 [file0, file1] rfl

/-- Claim C4: after a run over distinct scanned candidates, every
candidate is in exactly one of the three collections processed, skipped,
failed; and every deleted source is also processed or skipped. -/
theorem spec_C4 (args : Args) (enc : Encoder) (fs : FS)
    (targets : List FPath) (hnd : targets.Nodup) :
    (∀ f ∈ targets,
      (f ∈ (runMain args enc fs targets).processed.map Prod.fst ∧
        f ∉ (runMain args enc fs targets).skipped ∧
        f ∉ (runMain args enc fs targets).failed) ∨
      (f ∉ (runMain args enc fs targets).processed.map Prod.fst ∧
        f ∈ (runMain args enc fs targets).skipped ∧
        f ∉ (runMain args enc fs targets).failed) ∨
      (f ∉ (runMain args enc fs targets).processed.map Prod.fst ∧
        f ∉ (runMain args enc fs targets).skipped ∧
        f ∈ (runMain args enc fs targets).failed)) ∧
    (∀ g ∈ (runMain args enc fs targets).deleted,
      g ∈ (runMain args enc fs targets).processed.map Prod.fst ∨
        g ∈ (runMain args enc fs targets).skipped) := by
  constructor
  · intro f hf
    have hcnt := foldl_count args enc targets (initState fs) f
    have hone : targets.count f = 1 := List.count_eq_one_of_mem hnd hf
    rw [hone] at hcnt
    simp only [initState, List.map_nil, List.count_nil] at hcnt
    set a := ((runMain args enc fs targets).processed.map Prod.fst).count f
      with ha
    set b := (runMain args enc fs targets).skipped.count f with hb
    set c := (runMain args enc fs targets).failed.count f with hc
    have habc : a + b + c = 1 := hcnt
    have hmem : ∀ (l : List FPath), l.count f = 0 → f ∉ l := by
      intro l h0 hm
      have := List.count_pos_iff.mpr hm
      omega
    have hmem2 : ∀ (l : List FPath), 0 < l.count f → f ∈ l := by
      intro l h0
      exact List.count_pos_iff.mp h0
    rcases Nat.lt_or_ge 0 a with hA | hA
    · left
      refine ⟨hmem2 _ hA, hmem _ (by omega), hmem _ (by omega)⟩
    · rcases Nat.lt_or_ge 0 b with hB | hB
      · right; left
        refine ⟨hmem _ (by omega), hmem2 _ hB, hmem _ (by omega)⟩
      · right; right
        refine ⟨hmem _ (by omega), hmem _ (by omega), hmem2 _ (by omega)⟩
  · exact foldl_deleted_sub args enc targets (initState fs) (by intro g hg; cases hg)

/-- Witness for C4: a commit run over the two distinct candidates, the
first of which has an artifact already (so it is skipped), the second
failing: the first candidate lands in exactly one collection, and the
deleted source `a.mkv` is also skipped. -/
theorem spec_C4_witness :
    ((file0 ∈ (runMain argsAll encFail fs0 [file0, file1]).processed.map
        Prod.fst ∧
      file0 ∉ (runMain argsAll encFail fs0 [file0, file1]).skipped ∧
      file0 ∉ (runMain argsAll encFail fs0 [file0, file1]).failed) ∨
    (file0 ∉ (runMain argsAll encFail fs0 [file0, file1]).processed.map
        Prod.fst ∧
      file0 ∈ (runMain argsAll encFail fs0 [file0, file1]).skipped ∧
      file0 ∉ (runMain argsAll encFail fs0 [file0, file1]).failed) ∨
    (file0 ∉ (runMain argsAll encFail fs0 [file0, file1]).processed.map
        Prod.fst ∧
      file0 ∉ (runMain argsAll encFail fs0 [file0, file1]).skipped ∧
      file0 ∈ (runMain argsAll encFail fs0 [file0, file1]).failed)) :=
  (spec_C4 argsAll encFail fs0 [file0, file1] (by decide)).1 file0 (by decide)

/-- Claim C5: a candidate whose artifact already exists is, without
`--reprocess`, marked skipped and the encoder is not invoked for it; with
commit and delete both on, the source is unlinked and the candidate is
also marked deleted; the artifact itself is untouched in every case. -/
theorem spec_C5 (args : Args) (enc : Encoder) (st : RunState) (file : FPath)
    (hsome : (st.fs (dstOf file)).isSome = true)
    (hrep : args.reprocess = false) :
    (processOne args enc st file).skipped = st.skipped ++ [file] ∧
    (processOne args enc st file).processed = st.processed ∧
    (processOne args enc st file).failed = st.failed ∧
    (processOne args enc st file).encCalls = st.encCalls ∧
    (processOne args enc st file).fs (dstOf file) = st.fs (dstOf file) ∧
    (args.commit = true → args.delete = true →
      (processOne args enc st file).fs file = none ∧
      (processOne args enc st file).deleted = st.deleted ++ [file]) ∧
    ((args.commit && args.delete) = false →
      (processOne args enc st file).fs = st.fs ∧
      (processOne args enc st file).deleted = st.deleted) := by
  have hskip : ((st.fs (dstOf file)).isSome && !args.reprocess) = true := by
    simp [hsome, hrep]
  rw [processOne_skip_eq args enc st file hskip]
  by_cases hcd : (args.commit && args.delete) = true
  · rw [if_pos hcd]
    refine ⟨rfl, rfl, rfl, rfl, ?_, ?_, ?_⟩
    · exact fsUnlink_ne st.fs file (dstOf_ne_self file)
    · exact fun _ _ => ⟨fsUnlink_self st.fs file, rfl⟩
    · intro hf; rw [hcd] at hf; exact Bool.noConfusion hf
  · rw [if_neg hcd]
    refine ⟨rfl, rfl, rfl, rfl, rfl, ?_, fun _ => ⟨rfl, rfl⟩⟩
    intro h1 h2
    exact absurd (by rw [h1, h2]; rfl : (args.commit && args.delete) = true) hcd

/-- Witness for C5: `a.mkv` (with `a-converted.mp4` present) under
`--commit --delete` without `--reprocess` is skipped, its source is
deleted and recorded, the artifact survives, and the encoder is not
invoked. -/
theorem spec_C5_witness :
    (processOne argsAll2 encFail (initState fs0) file0).skipped = [file0] ∧
    (processOne argsAll2 encFail (initState fs0) file0).encCalls = [] ∧
    (processOne argsAll2 encFail (initState fs0) file0).fs (dstOf file0) =
      fs0 (dstOf file0) ∧
    (processOne argsAll2 encFail (initState fs0) file0).fs file0 = none ∧
    (processOne argsAll2 encFail (initState fs0) file0).deleted = [file0] := by
  have h := spec_C5 argsAll2 encFail (initState fs0) file0 (by decide) rfl
  exact ⟨h.1, h.2.2.2.1, h.2.2.2.2.1, (h.2.2.2.2.2.1 rfl rfl).1,
    (h.2.2.2.2.2.1 rfl rfl).2⟩

/-- Claim C6: in commit mode the final saved-bytes total is exactly the
integer sum, over the successfully processed candidates in order, of
(source size before transcoding minus artifact size after transcoding)
— terms may be negative — and the summary prints this total divided by
1048576. -/
theorem spec_C6 (args : Args) (enc : Encoder) (fs : FS)
    (targets : List FPath) (hc : args.commit = true) :
    (runMain args enc fs targets).total_saved =
      ((runMain args enc fs targets).savedLog.map
        (fun e => (e.2.1 : Int) - (e.2.2 : Int))).sum ∧
    (runMain args enc fs targets).savedLog.map Prod.fst =
      (runMain args enc fs targets).processed.map Prod.fst ∧
    reportSavedMB (runMain args enc fs targets) =
      ((runMain args enc fs targets).total_saved : ℚ) / 1048576 := by
  have h := foldl_saved args enc targets (initState fs) hc rfl rfl
  refine ⟨h.1, h.2, ?_⟩
  norm_num [reportSavedMB]

/-- Witness for C6: a commit run where `b.mkv` (2 bytes) transcodes into
a 1-byte artifact: the total equals the single logged term. -/
theorem spec_C6_witness :
    (runMain argsCommit encOk fs0 [file1]).total_saved =
      ((runMain argsCommit encOk fs0 [file1]).savedLog.map
        (fun e => (e.2.1 : Int) - (e.2.2 : Int))).sum ∧
    (runMain argsCommit encOk fs0 [file1]).savedLog.map Prod.fst =
      (runMain argsCommit encOk fs0 [file1]).processed.map Prod.fst ∧
    reportSavedMB (runMain argsCommit encOk fs0 [file1]) =
      ((runMain argsCommit encOk fs0 [file1]).total_saved : ℚ) / 1048576 :=
  spec_C6 argsCommit encOk fs0 [file1] rfl

/-- A root directory name that exists nowhere in the scanned tree. -/
def rootGone : List Name := [['n', 'o', 'p', 'e']]

/-- A file `a.mkv` inside directory `d`. -/
def entry0 : FPath := ⟨[['d']], ['a', '.', 'm', 'k', 'v']⟩

/-- The extension `mkv`. -/
def extMkv : Name := ['m', 'k', 'v']

/-- Counterexample to claim C7: with a root under which no filesystem
entry lies (a nonexistent or non-directory root), the program does not
fail with an input error and does not exit non-zero: `glob` silently
yields no candidates, the pass completes, and the exit status is 0
(`main` has no error path and no `sys.exit`). -/
theorem spec_C7_counterexample :
    ([entry0].all (fun p => !(rootGone.isPrefixOf p.dir))) = true ∧
    find_target_files [entry0] rootGone extMkv false = [] ∧
    (mainRun argsDry encFail fsEmpty [entry0] rootGone extMkv).2 = 0 := by
  refine ⟨by decide, by decide, rfl⟩

/-- Claim C7 as amended: the program always exits zero on completion of
the pass, regardless of individual failures; a root that does not exist
or is not a directory is not an error — the scan simply yields no
candidates and the run completes with the initial state and exit
status 0. -/
theorem spec_C7 :
    (∀ (args : Args) (enc : Encoder) (fs : FS) (entries : List FPath)
      (root : List Name) (ext : Name),
      (mainRun args enc fs entries root ext).2 = 0) ∧
    (∀ (args : Args) (enc : Encoder) (fs : FS) (entries : List FPath)
      (root : List Name) (ext : Name),
      (∀ p ∈ entries, root.isPrefixOf p.dir = false) →
      find_target_files entries root ext args.recursive = [] ∧
      (mainRun args enc fs entries root ext).1 = initState fs) := by
  constructor
  · intro args enc fs entries root ext
    rfl
  · intro args enc fs entries root ext hp
    have hf : find_target_files entries root ext args.recursive = [] := by
      unfold find_target_files
      split
      · apply List.filter_eq_nil_iff.mpr
        intro p hpmem
        simp [hp p hpmem]
      · apply List.filter_eq_nil_iff.mpr
        intro p hpmem
        have hne : p.dir ≠ root := by
          intro he
          have hpre : root.isPrefixOf p.dir = true := by
            rw [he]
            exact List.isPrefixOf_iff_prefix.mpr ⟨[], List.append_nil root⟩
          rw [hp p hpmem] at hpre
          exact Bool.noConfusion hpre
        simp [hne]
    refine ⟨hf, ?_⟩
    unfold mainRun
    rw [hf]
    rfl

/-- Witness for the amended C7: with the single entry `d/a.mkv` and root
`nope`, the scan is empty, the run state is untouched and the exit status
is 0. -/
theorem spec_C7_witness :
    (mainRun argsDry encFail fsEmpty [entry0] rootGone extMkv).2 = 0 ∧
    find_target_files [entry0] rootGone extMkv argsDry.recursive = [] ∧
    (mainRun argsDry encFail fsEmpty [entry0] rootGone extMkv).1 =
      initState fsEmpty :=
  ⟨spec_C7.1 argsDry encFail fsEmpty [entry0] rootGone extMkv,
    (spec_C7.2 argsDry encFail fsEmpty [entry0] rootGone extMkv
      (by decide)).1,
    (spec_C7.2 argsDry encFail fsEmpty [entry0] rootGone extMkv
      (by decide)).2⟩

/-- Claim C8: per-file errors are contained: the transcode step is a
total function returning a result (its `except` clause turns every
subprocess fault into a failure result), and the pass always handles
every scanned candidate — the three outcome collections together hold
exactly one entry per candidate, however many fail. -/
theorem spec_C8 (args : Args) (enc : Encoder) (fs : FS)
    (targets : List FPath) :
    (runMain args enc fs targets).processed.length +
      (runMain args enc fs targets).skipped.length +
      (runMain args enc fs targets).failed.length = targets.length := by
  have h := foldl_length args enc targets (initState fs)
  simpa [initState] using h

/-- Claim C9: in dry-run mode the transcode step returns success for
every candidate unconditionally, so after any dry run the failed
collection is empty and every scanned candidate that was not skipped is
counted as processed. -/
theorem spec_C9 :
    (∀ (enc : Encoder) (fs : FS) (src dst : FPath),
      (transcode_file enc fs src dst true).ok = true) ∧
    (∀ (args : Args) (enc : Encoder) (fs : FS) (targets : List FPath),
      args.commit = false →
      (runMain args enc fs targets).failed = [] ∧
      ∀ f ∈ targets,
        f ∈ (runMain args enc fs targets).processed.map Prod.fst ∨
          f ∈ (runMain args enc fs targets).skipped) := by
  constructor
  · intro enc fs src dst
    rfl
  · intro args enc fs targets hc
    have hfail : (runMain args enc fs targets).failed = [] :=
      (foldl_dry args enc targets (initState fs) hc).2.2.2.1
    refine ⟨hfail, ?_⟩
    intro f hf
    have hcnt : ((runMain args enc fs targets).processed.map Prod.fst).count f +
        (runMain args enc fs targets).skipped.count f +
        (runMain args enc fs targets).failed.count f =
        0 + 0 + 0 + targets.count f :=
      foldl_count args enc targets (initState fs) f
    have hpos : 0 < targets.count f := List.count_pos_iff.mpr hf
    have hz : (runMain args enc fs targets).failed.count f = 0 := by
      rw [show (runMain args enc fs targets).failed = [] from hfail]
      rfl
    rw [hz] at hcnt
    rcases Nat.lt_or_ge 0
      (((runMain args enc fs targets).processed.map Prod.fst).count f) with
      hA | hA
    · exact Or.inl (List.count_pos_iff.mp hA)
    · refine Or.inr (List.count_pos_iff.mp ?_)
      omega

/-- Witness for C9: a dry run over both candidates fails nothing; the
first candidate (whose artifact exists) ends up processed or skipped. -/
theorem spec_C9_witness :
    (runMain argsDry encFail fs0 [file0, file1]).failed = [] ∧
    (file0 ∈ (runMain argsDry encFail fs0 [file0, file1]).processed.map
        Prod.fst ∨
      file0 ∈ (runMain argsDry encFail fs0 [file0, file1]).skipped) :=
  ⟨(spec_C9.2 argsDry encFail fs0 [file0, file1] rfl).1,
    (spec_C9.2 argsDry encFail fs0 [file0, file1] rfl).2 file0 (by decide)⟩

/-- The file name `x-converted.mp4`, itself shaped like an artifact. -/
def xconv : Name :=
  ['x', '-', 'c', 'o', 'n', 'v', 'e', 'r', 't', 'e', 'd', '.', 'm', 'p', '4']

/-- The file name `x-converted-converted.mp4`. -/
def xconvconv : Name :=
  ['x', '-', 'c', 'o', 'n', 'v', 'e', 'r', 't', 'e', 'd', '-', 'c', 'o', 'n',
   'v', 'e', 'r', 't', 'e', 'd', '.', 'm', 'p', '4']

/-- The extension `mp4`. -/
def extMp4 : Name := ['m', 'p', '4']

/-- Claim C10: the scanner excludes nothing that matches the extension —
every enumerated entry of the root directory whose name matches `*.<ext>`
is a candidate — so with `--ext mp4` an existing artifact such as
`x-converted.mp4` is itself scanned, and its derived output path is
`x-converted-converted.mp4`. -/
theorem spec_C10 :
    (∀ (entries : List FPath) (root : List Name) (ext : Name) (p : FPath),
      p ∈ entries → (p.dir == root) = true → globMatch ext p.fname = true →
      p ∈ find_target_files entries root ext false) ∧
    (globMatch extMp4 xconv = true ∧
      dstOf ⟨[], xconv⟩ = ⟨[], xconvconv⟩) := by
  constructor
  · intro entries root ext p hp hdir hm
    have hmem : p ∈ entries.filter
        (fun q => q.dir == root && globMatch ext q.fname) :=
      List.mem_filter.mpr ⟨hp, by rw [Bool.and_eq_true]; exact ⟨hdir, hm⟩⟩
    exact hmem
  · exact ⟨by decide, by decide⟩

/-- Witness for C10: `x-converted.mp4` at the root is found by a
non-recursive scan for `mp4`. -/
theorem spec_C10_witness :
    (⟨[], xconv⟩ : FPath) ∈
      find_target_files [⟨[], xconv⟩] [] extMp4 false :=
  spec_C10.1 [⟨[], xconv⟩] [] extMp4 ⟨[], xconv⟩ (by decide) (by decide)
    (by decide)

end Transcode
